import Mathlib

/-!
Shallow embedding of the arena-backed LRU cache from `src/lib.rs`
(`lru_rs` crate: `Entry`, `LRUCache`, `IterMut` and the public operations
`len`, `is_empty`, `clear`, `items`, `front`, `front_mut`, `insert`,
`touch`, `lookup`, `fetch`, plus the private helpers `push_front`,
`pop_back`, `remove`, `touch_index`, `iter_mut`).

Modelling conventions:
* The `ArrayVec<Entry<T>, CAP>` arena is a Lean `List (Entry T)` together
  with the constant capacity `cap`; `usize` indices are `Nat`.
* Every Rust operation that can panic (out-of-bounds indexing `entries[i]`,
  `ArrayVec::push` on a full vector, a failed `assert!`) is modelled by an
  `Option`-returning function, `none` meaning the panic.
* `IterMut` (a cursor that starts at `head`, is immediately done when the
  cache `is_empty`, follows `next` links and stops after visiting `tail`)
  is modelled by the fuel-bounded scan `iterFrom` / `iterAll`, the fuel
  being `length`: on every state satisfying the list invariants the Rust
  iterator visits exactly `length` nodes, which the fuel covers exactly,
  and running out of fuel (`none`) corresponds to a scan that a finite
  traversal of `length` nodes cannot finish.
* The Rust `find`/`for` over `IterMut` in `touch` and `lookup` is lazy
  (entries after the first match are never dereferenced); the model scans
  eagerly.  On every state satisfying the list invariants — the states
  all theorems below are about — every slot access of the full scan
  succeeds, so the two agree there.
* `front_mut` returns `&mut T` in Rust; the call itself mutates nothing,
  so it is modelled, like `front`, as the value it gives access to.
  Likewise `items`, `touch`, `lookup` and `fetch` take `&mut self`; the
  model returns the resulting state explicitly whenever the operation can
  mutate, and `items` is modelled state-free because its body only clones.
-/

namespace LRU

structure Entry (T : Type) where
  val : T
  prev : Nat
  next : Nat
deriving Repr, DecidableEq

structure LRUCache (T : Type) where
  cap : Nat
  entries : List (Entry T)
  head : Nat
  tail : Nat
  length : Nat
deriving Repr, DecidableEq

/-- `LRUCache::default()`: the empty cache of capacity `cap`. -/
def LRUCache.empty (T : Type) (cap : Nat) : LRUCache T :=
  ⟨cap, [], 0, 0, 0⟩

/-- `LRUCache::len`. -/
def LRUCache.len {T : Type} (c : LRUCache T) : Nat :=
  c.length

/-- `LRUCache::is_empty`. -/
def LRUCache.is_empty {T : Type} (c : LRUCache T) : Bool :=
  c.length == 0

/-- `LRUCache::clear`. -/
def LRUCache.clear {T : Type} (c : LRUCache T) : LRUCache T :=
  { c with entries := [], head := 0, tail := 0, length := 0 }

/-- `LRUCache::front`: `self.entries.get(self.head).map(|e| &e.val)`. -/
def LRUCache.front {T : Type} (c : LRUCache T) : Option T :=
  (c.entries[c.head]?).map Entry.val

/-- `LRUCache::front_mut`: same slot access as `front`; the handle it
returns is modelled by the value it designates, and the call itself does
not change the cache. -/
def LRUCache.front_mut {T : Type} (c : LRUCache T) : Option T :=
  (c.entries[c.head]?).map Entry.val

/-- One run of `IterMut` starting at position `pos`, following `next`
links and stopping right after visiting `tl` (the cache's `tail`), with
explicit fuel; yields the `(index, value)` pairs in visit order.
`none` models a scan that does not finish within the fuel, or a panic on
an out-of-bounds `entries[pos]`. -/
def iterFrom {T : Type} (entries : List (Entry T)) (tl : Nat) :
    Nat → Nat → Option (List (Nat × T))
  | 0, _ => none
  | fuel + 1, pos =>
    match entries[pos]? with
    | none => none
    | some e =>
      if pos = tl then
        some [(pos, e.val)]
      else
        match iterFrom entries tl fuel e.next with
        | none => none
        | some rest => some ((pos, e.val) :: rest)

/-- `LRUCache::iter_mut` run to completion: immediately empty when
`is_empty` (the iterator starts `done`), otherwise the scan from `head`
with fuel `length`. -/
def iterAll {T : Type} (c : LRUCache T) : Option (List (Nat × T)) :=
  if c.length = 0 then some [] else iterFrom c.entries c.tail c.length c.head

/-- `LRUCache::items`: collect the scanned values most-recent first. -/
def LRUCache.items {T : Type} (c : LRUCache T) : Option (List T) :=
  (iterAll c).map (List.map Prod.snd)

/-- `LRUCache::push_front` (private): splice arena slot `index` in as the
new `head`. -/
def LRUCache.push_front {T : Type} (c : LRUCache T) (index : Nat) :
    Option (LRUCache T) :=
  if c.entries.length = 1 then
    some { c with tail := index, head := index }
  else
    match c.entries[index]? with
    | none => none
    | some e =>
      let entries1 := c.entries.set index { e with next := c.head }
      match entries1[c.head]? with
      | none => none
      | some h =>
        some { c with entries := entries1.set c.head { h with prev := index },
                      head := index }

/-- `LRUCache::pop_back` (private): unlink the current `tail`, returning
its index. -/
def LRUCache.pop_back {T : Type} (c : LRUCache T) : Option (Nat × LRUCache T) :=
  match c.entries[c.tail]? with
  | none => none
  | some e => some (c.tail, { c with tail := e.prev })

/-- `LRUCache::remove` (private): unsplice slot `index`, patching `head`,
`tail` and the neighbours' links; decrements `length`.  The leading
`none` on an empty cache models `assert!(self.length > 0)`. -/
def LRUCache.remove {T : Type} (c : LRUCache T) (index : Nat) :
    Option (LRUCache T) :=
  if c.length = 0 then none
  else
    match c.entries[index]? with
    | none => none
    | some e =>
      let step1 : Option (LRUCache T) :=
        if index = c.head then some { c with head := e.next }
        else
          match c.entries[e.prev]? with
          | none => none
          | some pe =>
            some { c with entries := c.entries.set e.prev { pe with next := e.next } }
      match step1 with
      | none => none
      | some c1 =>
        let step2 : Option (LRUCache T) :=
          if index = c1.tail then some { c1 with tail := e.prev }
          else
            match c1.entries[e.next]? with
            | none => none
            | some ne =>
              some { c1 with entries := c1.entries.set e.next { ne with prev := e.prev } }
        match step2 with
        | none => none
        | some c2 => some { c2 with length := c2.length - 1 }

/-- `LRUCache::touch_index` (private): promote slot `index` to the head
unless it already is the head. -/
def LRUCache.touch_index {T : Type} (c : LRUCache T) (index : Nat) :
    Option (LRUCache T) :=
  if index = c.head then some c
  else
    match c.remove index with
    | none => none
    | some c1 =>
      LRUCache.push_front { c1 with length := c1.length + 1 } index

/-- `LRUCache::touch`: find the first scanned entry satisfying `pred`,
promote it, report whether a match was found. -/
def LRUCache.touch {T : Type} (c : LRUCache T) (pred : T → Bool) :
    Option (Bool × LRUCache T) :=
  match iterAll c with
  | none => none
  | some visits =>
    match visits.find? (fun pr => pred pr.2) with
    | some (i, _) =>
      match c.touch_index i with
      | none => none
      | some c1 => some (true, c1)
    | none => some (false, c)

/-- `LRUCache::lookup`: find the first scanned entry on which `pred`
yields a result, promote it, return the derived result. -/
def LRUCache.lookup {T R : Type} (c : LRUCache T) (pred : T → Option R) :
    Option (Option R × LRUCache T) :=
  match iterAll c with
  | some visits =>
    match visits.find? (fun pr => (pred pr.2).isSome) with
    | some (i, x) =>
      match c.touch_index i with
      | none => none
      | some c1 => some (pred x, c1)
    | none => some (none, c)
  | none => none

/-- `LRUCache::insert`: at capacity, reuse the evicted tail slot in
place; below capacity, append a fresh slot (`ArrayVec::push` panics,
i.e. `none`, if the arena is already full); then splice at head. -/
def LRUCache.insert {T : Type} (c : LRUCache T) (v : T) : Option (LRUCache T) :=
  let entry : Entry T := ⟨v, 0, 0⟩
  if c.length = c.cap then
    match c.pop_back with
    | none => none
    | some (last_index, c1) =>
      match c1.entries[last_index]? with
      | none => none
      | some _ =>
        LRUCache.push_front
          { c1 with entries := c1.entries.set last_index entry } last_index
  else
    if c.entries.length = c.cap then none
    else
      let c1 : LRUCache T :=
        { c with entries := c.entries ++ [entry], length := c.length + 1 }
      c1.push_front (c1.entries.length - 1)

/-- `LRUCache::fetch`: `touch` then, on success, `front_mut`. -/
def LRUCache.fetch {T : Type} (c : LRUCache T) (pred : T → Bool) :
    Option (Option T × LRUCache T) :=
  match c.touch pred with
  | none => none
  | some (found, c1) =>
    if found then some (c1.front_mut, c1) else some (none, c1)

/-- Run a whole sequence of `insert` calls, left to right. -/
def insertAll {T : Type} (vs : List T) (c : LRUCache T) : Option (LRUCache T) :=
  List.foldlM LRUCache.insert c vs

end LRU

namespace LRU

/-! ## Abstract view: the recency order as a list of arena indices -/

/-- Value stored at arena slot `i` (defaulting outside the arena; all uses
are guarded by an in-bounds fact). -/
def valD {T : Type} [Inhabited T] (entries : List (Entry T)) (i : Nat) : T :=
  ((entries[i]?).map Entry.val).getD default

/-- `next` link of arena slot `i`. -/
def nxt {T : Type} (entries : List (Entry T)) (i : Nat) : Nat :=
  ((entries[i]?).map Entry.next).getD 0

/-- `prev` link of arena slot `i`. -/
def prv {T : Type} (entries : List (Entry T)) (i : Nat) : Nat :=
  ((entries[i]?).map Entry.prev).getD 0

/-- Slot `b` directly follows slot `a` in the doubly linked list: `a`'s
`next` is `b` and `b`'s `prev` is `a`. -/
def adj {T : Type} (entries : List (Entry T)) (a b : Nat) : Prop :=
  nxt entries a = b ∧ prv entries b = a

/-- The arena `entries` carries a well-formed doubly linked list whose
nodes, most-recent first, are exactly `ord`: distinct in-bounds indices,
`hd`/`tl` at the two ends, and consecutive nodes mutually linked. -/
structure LL {T : Type} (entries : List (Entry T)) (hd tl : Nat)
    (ord : List Nat) : Prop where
  nodup : ord.Nodup
  mem_lt : ∀ i ∈ ord, i < entries.length
  head_eq : ord ≠ [] → ord.head? = some hd
  tail_eq : ord ≠ [] → ord.getLast? = some tl
  chain : List.Chain' (adj entries) ord

/-- Full invariant of a reachable cache state, relative to its recency
order `ord`: the arena list discipline plus the bookkeeping equalities
`length = |ord| = |entries|` and the capacity bound. -/
structure GoodState {T : Type} (c : LRUCache T) (ord : List Nat) : Prop where
  ll : LL c.entries c.head c.tail ord
  len_eq : c.length = ord.length
  elen_eq : c.entries.length = ord.length
  cap_le : ord.length ≤ c.cap

/-- The values held by the cache, most-recent first, along order `ord`. -/
def valsOf {T : Type} [Inhabited T] (c : LRUCache T) (ord : List Nat) : List T :=
  ord.map (valD c.entries)

/-! ## Generic list helpers -/

theorem set_getElem?_self {α : Type} {l : List α} {i : Nat} (h : i < l.length)
    (a : α) : (l.set i a)[i]? = some a := by
  rw [List.getElem?_set_self']
  simp [List.getElem?_eq_getElem h]

theorem pair_sublist_cons {α : Type} {a b x : α} {l : List α}
    (h : List.Sublist [a, b] (x :: l)) :
    List.Sublist [a, b] l ∨ (a = x ∧ b ∈ l) := by
  cases h with
  | cons _ h' => exact Or.inl h'
  | cons₂ _ h' => exact Or.inr ⟨rfl, h'.mem (by simp)⟩

/-- A pair that is a sublist of `hd :: l` cannot target `hd` if `hd`
occurs nowhere in `l`. -/
theorem not_pair_sublist_head {α : Type} {a hd : α} {l : List α}
    (h : List.Sublist [a, hd] (hd :: l)) (hnot : hd ∉ l) : False := by
  rcases pair_sublist_cons h with h' | ⟨_, hmem⟩
  · exact hnot (h'.mem (by simp))
  · exact hnot hmem

/-- A pair that is a sublist of `l ++ [last]` cannot have `last` as its
source if `last` occurs nowhere in `l`. -/
theorem not_pair_sublist_last {α : Type} {b lst : α} {l : List α}
    (h : List.Sublist [lst, b] (l ++ [lst])) (hnot : lst ∉ l) : False := by
  have h2 : List.Sublist [b, lst] (lst :: l.reverse) := by
    have := h.reverse
    simpa using this
  exact not_pair_sublist_head h2 (by simpa using hnot)

/-- Transfer a `Chain'` along an implication that is only required on
ordered pairs actually occurring inside the list. -/
theorem chain'_imp_sub {α : Type} {R S : α → α → Prop} :
    ∀ {l : List α}, List.Chain' R l →
      (∀ a b, List.Sublist [a, b] l → R a b → S a b) → List.Chain' S l
  | [], _, _ => List.chain'_nil
  | [_], _, _ => List.chain'_singleton _
  | x :: y :: t, h, himp => by
    rcases List.chain'_cons.mp h with ⟨hxy, h'⟩
    refine List.chain'_cons.mpr ⟨himp x y ?_ hxy, ?_⟩
    · exact (List.Sublist.cons₂ x (List.Sublist.cons₂ y (List.nil_sublist t)))
    · exact chain'_imp_sub h' (fun a b hs hr => himp a b (hs.cons x) hr)

/-- An element that is not the head of a list has an immediate
predecessor inside it. -/
theorem mem_split_before {α : Type} [DecidableEq α] :
    ∀ {l : List α} {i : α}, i ∈ l → l.head? ≠ some i →
      ∃ l1 p l2, l = l1 ++ p :: i :: l2
  | [], i, hmem, _ => absurd hmem (by simp)
  | a :: rest, i, hmem, hne => by
    have hai : a ≠ i := fun h => hne (by simp [h])
    have hmem' : i ∈ rest := by
      rcases List.mem_cons.mp hmem with h | h
      · exact absurd h.symm hai
      · exact h
    match hrest : rest, hmem' with
    | b :: rest', hmem' =>
      by_cases hbi : b = i
      · exact ⟨[], a, rest', by simp [hbi]⟩
      · have hne' : (b :: rest').head? ≠ some i := by simp [hbi]
        rcases mem_split_before hmem' hne' with ⟨l1, p, l2, heq⟩
        exact ⟨a :: l1, p, l2, by simp [heq]⟩

/-- An element that is not the last of a list has an immediate successor
inside it. -/
theorem mem_split_after {α : Type} [DecidableEq α] :
    ∀ {l : List α} {i : α}, i ∈ l → l.getLast? ≠ some i →
      ∃ l1 b l2, l = l1 ++ i :: b :: l2
  | [], i, hmem, _ => absurd hmem (by simp)
  | a :: rest, i, hmem, hne => by
    by_cases hai : a = i
    · subst hai
      cases rest with
      | nil => exact (hne (by simp)).elim
      | cons b rest' => exact ⟨[], b, rest', rfl⟩
    · have hmem' : i ∈ rest := by
        rcases List.mem_cons.mp hmem with h | h
        · exact absurd h.symm hai
        · exact h
      match hrest : rest, hmem' with
      | b :: rest', hmem' =>
        have hne' : (b :: rest').getLast? ≠ some i := by
          intro hco
          exact hne (by rw [List.getLast?_cons_cons]; exact hco)
        rcases mem_split_after hmem' hne' with ⟨l1, b', l2, heq⟩
        exact ⟨a :: l1, b', l2, by simp [heq]⟩

theorem head?_append_cons {α : Type} (l1 : List α) (a : α) (l2 l2' : List α) :
    (l1 ++ a :: l2).head? = (l1 ++ a :: l2').head? := by
  cases l1 <;> rfl

theorem find?_append_none {α : Type} {p : α → Bool} :
    ∀ {l1 : List α} (l2 : List α), (∀ x ∈ l1, p x = false) →
      (l1 ++ l2).find? p = l2.find? p
  | [], _, _ => rfl
  | x :: xs, l2, h => by
    simp only [List.cons_append, List.find?_cons]
    rw [h x (by simp)]
    exact find?_append_none l2 (fun y hy => h y (by simp [hy]))

end LRU

namespace LRU

theorem mem_of_getLast?_some {α : Type} {l : List α} {a : α}
    (h : l.getLast? = some a) : a ∈ l := by
  rcases List.mem_getLast?_eq_getLast (Option.mem_def.mpr h) with ⟨hne, heq⟩
  rw [heq]
  exact List.getLast_mem hne

/-! ## Rewriting the slot accessors across arena updates -/

theorem nxt_set_ne {T : Type} {l : List (Entry T)} {j : Nat} (e : Entry T)
    {i : Nat} (h : j ≠ i) : nxt (l.set j e) i = nxt l i := by
  unfold nxt
  rw [List.getElem?_set_ne h]

theorem prv_set_ne {T : Type} {l : List (Entry T)} {j : Nat} (e : Entry T)
    {i : Nat} (h : j ≠ i) : prv (l.set j e) i = prv l i := by
  unfold prv
  rw [List.getElem?_set_ne h]

theorem valD_set_ne {T : Type} [Inhabited T] {l : List (Entry T)} {j : Nat}
    (e : Entry T) {i : Nat} (h : j ≠ i) : valD (l.set j e) i = valD l i := by
  unfold valD
  rw [List.getElem?_set_ne h]

theorem nxt_set_self {T : Type} {l : List (Entry T)} {j : Nat}
    (h : j < l.length) (e : Entry T) : nxt (l.set j e) j = e.next := by
  unfold nxt
  rw [set_getElem?_self h]
  rfl

theorem prv_set_self {T : Type} {l : List (Entry T)} {j : Nat}
    (h : j < l.length) (e : Entry T) : prv (l.set j e) j = e.prev := by
  unfold prv
  rw [set_getElem?_self h]
  rfl

theorem valD_set_self {T : Type} [Inhabited T] {l : List (Entry T)} {j : Nat}
    (h : j < l.length) (e : Entry T) : valD (l.set j e) j = e.val := by
  unfold valD
  rw [set_getElem?_self h]
  rfl

/-- Overwriting a slot with an entry holding the same value leaves every
`valD` unchanged. -/
theorem valD_set_keep {T : Type} [Inhabited T] {l : List (Entry T)} {j : Nat}
    {e0 e : Entry T} (hj : l[j]? = some e0) (hval : e.val = e0.val) (i : Nat) :
    valD (l.set j e) i = valD l i := by
  by_cases h : j = i
  · subst h
    rcases List.getElem?_eq_some.mp hj with ⟨hlt, _⟩
    rw [valD_set_self hlt]
    unfold valD
    rw [hj, hval]
    rfl
  · exact valD_set_ne e h

theorem nxt_append {T : Type} {l l2 : List (Entry T)} {i : Nat}
    (h : i < l.length) : nxt (l ++ l2) i = nxt l i := by
  unfold nxt
  rw [List.getElem?_append_left h]

theorem prv_append {T : Type} {l l2 : List (Entry T)} {i : Nat}
    (h : i < l.length) : prv (l ++ l2) i = prv l i := by
  unfold prv
  rw [List.getElem?_append_left h]

theorem valD_append {T : Type} [Inhabited T] {l l2 : List (Entry T)} {i : Nat}
    (h : i < l.length) : valD (l ++ l2) i = valD l i := by
  unfold valD
  rw [List.getElem?_append_left h]

/-! ## The scan visits exactly the recency order -/

theorem iterFrom_good {T : Type} [Inhabited T] (entries : List (Entry T))
    (tl : Nat) :
    ∀ (ord : List Nat) (hd : Nat), ord.head? = some hd →
      ord.getLast? = some tl → ord.Nodup →
      (∀ i ∈ ord, i < entries.length) → List.Chain' (adj entries) ord →
      iterFrom entries tl ord.length hd =
        some (ord.map (fun i => (i, valD entries i)))
  | [], hd, hhd, _, _, _, _ => by simp at hhd
  | i :: rest, hd, hhd, htl, hnd, hlt, hch => by
    have hhdi : hd = i := by simpa using hhd.symm
    subst hhdi
    have hilt : hd < entries.length := hlt hd (by simp)
    have he : entries[hd]? = some entries[hd] := List.getElem?_eq_getElem hilt
    have hvd : valD entries hd = (entries[hd]).val := by
      unfold valD
      rw [he]
      rfl
    cases rest with
    | nil =>
      have htl' : tl = hd := by simpa using htl.symm
      subst htl'
      simp [iterFrom, he, hvd]
    | cons r rest' =>
      have htl2 : (r :: rest').getLast? = some tl := by
        rw [List.getLast?_cons_cons] at htl
        exact htl
      have htlmem : tl ∈ r :: rest' := mem_of_getLast?_some htl2
      have hdnotin : hd ∉ r :: rest' := by
        intro hco
        exact (List.nodup_cons.mp hnd).1 hco
      have hne : hd ≠ tl := fun hco => hdnotin (hco ▸ htlmem)
      rcases List.chain'_cons.mp hch with ⟨hadj, hch'⟩
      have hnext : (entries[hd]).next = r := by
        have := hadj.1
        unfold nxt at this
        rw [he] at this
        simpa using this
      have ih := iterFrom_good entries tl (r :: rest') r rfl htl2
        (List.nodup_cons.mp hnd).2 (fun j hj => hlt j (by simp [hj])) hch'
      have hun : iterFrom entries tl (hd :: r :: rest').length hd =
          match entries[hd]? with
          | none => none
          | some e =>
            if hd = tl then some [(hd, e.val)]
            else
              match iterFrom entries tl (r :: rest').length e.next with
              | none => none
              | some rest => some ((hd, e.val) :: rest) := rfl
      rw [hun, he]
      simp only [hne, if_false, hnext, ih, hvd, List.map_cons]

/-- On an invariant state the whole scan succeeds and visits exactly
`ord`, pairing each index with its stored value. -/
theorem iterAll_good {T : Type} [Inhabited T] {c : LRUCache T} {ord : List Nat}
    (g : GoodState c ord) :
    iterAll c = some (ord.map (fun i => (i, valD c.entries i))) := by
  unfold iterAll
  by_cases h : c.length = 0
  · have hord : ord = [] := List.eq_nil_of_length_eq_zero (g.len_eq ▸ h)
    simp [h, hord]
  · have hord : ord ≠ [] := by
      intro he
      exact h (by rw [g.len_eq, he]; rfl)
    rw [if_neg h, g.len_eq]
    exact iterFrom_good c.entries c.tail ord c.head (g.ll.head_eq hord)
      (g.ll.tail_eq hord) g.ll.nodup g.ll.mem_lt g.ll.chain

/-- On an invariant state `items` succeeds and returns the values along
the recency order. -/
theorem items_good {T : Type} [Inhabited T] {c : LRUCache T} {ord : List Nat}
    (g : GoodState c ord) : c.items = some (valsOf c ord) := by
  unfold LRUCache.items valsOf
  rw [iterAll_good g]
  simp

/-- On an invariant state `front` is the first value of the recency
order (`none` exactly when the cache is empty). -/
theorem front_good {T : Type} [Inhabited T] {c : LRUCache T} {ord : List Nat}
    (g : GoodState c ord) : c.front = (valsOf c ord).head? := by
  cases hord : ord with
  | nil =>
    have hee : c.entries = [] :=
      List.eq_nil_of_length_eq_zero (by rw [g.elen_eq, hord]; rfl)
    unfold LRUCache.front valsOf
    simp [hee, hord]
  | cons i rest =>
    have hhd := g.ll.head_eq (by rw [hord]; simp)
    rw [hord] at hhd
    have hhead : c.head = i := by simpa using hhd.symm
    have hlt : i < c.entries.length := g.ll.mem_lt i (by rw [hord]; simp)
    unfold LRUCache.front valsOf valD
    rw [hhead]
    simp [List.getElem?_eq_getElem hlt]

end LRU

namespace LRU

/-! ## `push_front` -/

/-- The `entries.len() == 1` branch of `push_front` writes no links. -/
theorem push_front_one {T : Type} {c : LRUCache T} (h1 : c.entries.length = 1)
    (i : Nat) : c.push_front i = some { c with tail := i, head := i } := by
  unfold LRUCache.push_front
  rw [if_pos h1]

/-- Growing the arena on the right does not disturb an existing list. -/
theorem LL_append {T : Type} {entries : List (Entry T)} {hd tl : Nat}
    {ord : List Nat} (ll : LL entries hd tl ord) (l2 : List (Entry T)) :
    LL (entries ++ l2) hd tl ord := by
  refine ⟨ll.nodup, ?_, ll.head_eq, ll.tail_eq, ?_⟩
  · intro j hj
    calc j < entries.length := ll.mem_lt j hj
    _ ≤ (entries ++ l2).length := by simp
  · refine chain'_imp_sub ll.chain (fun a b hs hadj => ?_)
    have ha : a < entries.length := ll.mem_lt a (hs.mem (by simp))
    have hb : b < entries.length := ll.mem_lt b (hs.mem (by simp))
    exact ⟨by rw [nxt_append ha]; exact hadj.1, by rw [prv_append hb]; exact hadj.2⟩

/-- Main branch of `push_front`: splicing a fresh (not in-list, in-bounds)
slot `i` at the head of a nonempty list yields the list `i :: ord`. -/
theorem push_front_good {T : Type} [Inhabited T] {c : LRUCache T}
    {ord : List Nat} {i : Nat}
    (ll : LL c.entries c.head c.tail ord) (hord : ord ≠ [])
    (hlen1 : c.entries.length ≠ 1)
    (hi : i < c.entries.length) (hni : i ∉ ord) :
    ∃ c', c.push_front i = some c' ∧
      LL c'.entries c'.head c'.tail (i :: ord) ∧
      c'.head = i ∧ c'.tail = c.tail ∧ c'.cap = c.cap ∧
      c'.length = c.length ∧ c'.entries.length = c.entries.length ∧
      (∀ j, valD c'.entries j = valD c.entries j) := by
  cases ord with
  | nil => exact absurd rfl hord
  | cons hd0 rest =>
    have hhd0 : hd0 = c.head := by simpa using ll.head_eq (by simp)
    subst hhd0
    have hhdmem : c.head ∈ c.head :: rest := by simp
    have hhlt : c.head < c.entries.length := ll.mem_lt _ hhdmem
    have hih : i ≠ c.head := fun h => hni (h ▸ hhdmem)
    have he_i : c.entries[i]? = some c.entries[i] := List.getElem?_eq_getElem hi
    have heh : (c.entries.set i { c.entries[i] with next := c.head })[c.head]? =
        some c.entries[c.head] := by
      rw [List.getElem?_set_ne hih, List.getElem?_eq_getElem hhlt]
    set e2 : List (Entry T) :=
      (c.entries.set i { c.entries[i] with next := c.head }).set c.head
        { c.entries[c.head] with prev := i } with he2
    have he2len : e2.length = c.entries.length := by
      rw [he2]
      simp
    have hnxt_keep : ∀ a ∈ c.head :: rest, nxt e2 a = nxt c.entries a := by
      intro a ha
      by_cases hahd : a = c.head
      · subst hahd
        rw [he2, nxt_set_self (by simpa using hhlt)]
        unfold nxt
        rw [List.getElem?_eq_getElem hhlt]
        rfl
      · have hai : i ≠ a := by
          intro h
          exact hni (h ▸ ha)
        rw [he2, nxt_set_ne _ (fun h => hahd h.symm), nxt_set_ne _ hai]
    have hprv_keep : ∀ b ∈ rest, prv e2 b = prv c.entries b := by
      intro b hb
      have hbhd : c.head ≠ b := by
        intro h
        exact (List.nodup_cons.mp ll.nodup).1 (h ▸ hb)
      have hbi : i ≠ b := by
        intro h
        exact hni (h ▸ List.mem_cons_of_mem _ hb)
      rw [he2, prv_set_ne _ hbhd, prv_set_ne _ hbi]
    have hLL : LL e2 i c.tail (i :: c.head :: rest) := by
      refine ⟨List.nodup_cons.mpr ⟨hni, ll.nodup⟩, ?_, fun _ => rfl, ?_, ?_⟩
      · intro j hj
        rw [he2len]
        rcases List.mem_cons.mp hj with h | h
        · exact h ▸ hi
        · exact ll.mem_lt j h
      · intro _
        rw [List.getLast?_cons_cons]
        exact ll.tail_eq (by simp)
      · refine List.chain'_cons.mpr ⟨⟨?_, ?_⟩, ?_⟩
        · rw [he2, nxt_set_ne _ (Ne.symm hih), nxt_set_self hi]
        · rw [he2, prv_set_self (by simpa using hhlt)]
        · refine chain'_imp_sub ll.chain (fun a b hs hadj => ?_)
          have hamem := hs.mem (show a ∈ [a, b] by simp)
          have hbmem := hs.mem (show b ∈ [a, b] by simp)
          by_cases hbhd : b = c.head
          · subst hbhd
            exact (not_pair_sublist_head hs (List.nodup_cons.mp ll.nodup).1).elim
          · have hbrest : b ∈ rest := by
              rcases List.mem_cons.mp hbmem with h | h
              · exact absurd h hbhd
              · exact h
            exact ⟨by rw [hnxt_keep a hamem]; exact hadj.1,
                   by rw [hprv_keep b hbrest]; exact hadj.2⟩
    have hvals : ∀ j, valD e2 j = valD c.entries j := by
      intro j
      have h1 : valD e2 j =
          valD (c.entries.set i { c.entries[i] with next := c.head }) j :=
        valD_set_keep heh
          (show ({ c.entries[c.head] with prev := i } : Entry T).val =
            (c.entries[c.head]).val from rfl) j
      have h2 : valD (c.entries.set i { c.entries[i] with next := c.head }) j =
          valD c.entries j :=
        valD_set_keep he_i
          (show ({ c.entries[i] with next := c.head } : Entry T).val =
            (c.entries[i]).val from rfl) j
      exact h1.trans h2
    refine ⟨{ c with entries := e2, head := i }, ?_, hLL, rfl, rfl, rfl, rfl,
      he2len, hvals⟩
    unfold LRUCache.push_front
    rw [if_neg hlen1, he_i]
    simp only [heh, he2]

end LRU

namespace LRU

theorem nxt_eq_entry {T : Type} {l : List (Entry T)} {i : Nat}
    (h : i < l.length) : nxt l i = (l[i]).next := by
  unfold nxt
  rw [List.getElem?_eq_getElem h]
  rfl

theorem prv_eq_entry {T : Type} {l : List (Entry T)} {i : Nat}
    (h : i < l.length) : prv l i = (l[i]).prev := by
  unfold prv
  rw [List.getElem?_eq_getElem h]
  rfl

/-! ## `remove` -/

/-- `remove` on a non-head in-list slot `i` (with predecessor `p`)
unsplices exactly `i`, leaving the list `l1 ++ p :: l2`. -/
theorem remove_good {T : Type} [Inhabited T] {c : LRUCache T}
    {l1 : List Nat} {p i : Nat} {l2 : List Nat}
    (ll : LL c.entries c.head c.tail (l1 ++ p :: i :: l2))
    (hlen : c.length ≠ 0) :
    ∃ c', c.remove i = some c' ∧
      LL c'.entries c'.head c'.tail (l1 ++ p :: l2) ∧
      c'.head = c.head ∧ c'.cap = c.cap ∧
      c'.length = c.length - 1 ∧ c'.entries.length = c.entries.length ∧
      (∀ j, valD c'.entries j = valD c.entries j) := by
  have hnd := ll.nodup
  have hndr : (p :: i :: l2).Nodup := (List.nodup_append.mp hnd).2.1
  have hdisj : l1.Disjoint (p :: i :: l2) := (List.nodup_append.mp hnd).2.2
  have hpl1 : p ∉ l1 := fun h => hdisj h (by simp)
  have hil1 : i ∉ l1 := fun h => hdisj h (by simp)
  have hpi : p ≠ i := by
    intro h
    exact (List.nodup_cons.mp hndr).1 (by simp [h])
  have hpl2 : p ∉ l2 := fun h => (List.nodup_cons.mp hndr).1 (by simp [h])
  have hil2 : i ∉ l2 :=
    (List.nodup_cons.mp (List.nodup_cons.mp hndr).2).1
  have himem : i ∈ l1 ++ p :: i :: l2 := by simp
  have hpmem : p ∈ l1 ++ p :: i :: l2 := by simp
  have hilt : i < c.entries.length := ll.mem_lt i himem
  have hplt : p < c.entries.length := ll.mem_lt p hpmem
  have hhd : (l1 ++ p :: i :: l2).head? = some c.head :=
    ll.head_eq (by simp)
  have htl : (l1 ++ p :: i :: l2).getLast? = some c.tail :=
    ll.tail_eq (by simp)
  have hihd : i ≠ c.head := by
    cases l1 with
    | nil =>
      have : p = c.head := by simpa using hhd
      exact this ▸ (fun h => hpi h.symm)
    | cons a l1' =>
      have ha : a = c.head := by simpa using hhd
      intro h
      exact hil1 (by simp [ha, h])
  rcases List.chain'_append.mp ll.chain with ⟨hch1, hch2, hlink⟩
  rcases List.chain'_cons.mp hch2 with ⟨hadj_pi, hch3⟩
  have he_i : c.entries[i]? = some c.entries[i] := List.getElem?_eq_getElem hilt
  have he_p : c.entries[p]? = some c.entries[p] := List.getElem?_eq_getElem hplt
  have eprev : (c.entries[i]).prev = p :=
    ((prv_eq_entry hilt).symm.trans hadj_pi.2)
  -- the arena after the first relink: p's `next` jumps over i
  set e1 : List (Entry T) :=
    c.entries.set p { c.entries[p] with next := (c.entries[i]).next } with hdefe1
  have he1len : e1.length = c.entries.length := by
    rw [hdefe1]
    simp
  have hvals1 : ∀ j, valD e1 j = valD c.entries j := by
    intro j
    exact valD_set_keep he_p
      (show ({ c.entries[p] with next := (c.entries[i]).next } : Entry T).val =
        (c.entries[p]).val from rfl) j
  have hnxt1_ne : ∀ a, a ≠ p → nxt e1 a = nxt c.entries a := by
    intro a ha
    rw [hdefe1, nxt_set_ne _ (fun h => ha h.symm)]
  have hprv1 : ∀ b, prv e1 b = prv c.entries b := by
    intro b
    by_cases hbp : b = p
    · subst hbp
      rw [hdefe1, prv_set_self hplt, ← prv_eq_entry hplt]
    · rw [hdefe1, prv_set_ne _ (fun h => hbp h.symm)]
  -- the old chain, reassociated around the prefix ending at p
  have hch0 : List.Chain' (adj c.entries) ((l1 ++ [p]) ++ i :: l2) := by
    have : (l1 ++ [p]) ++ i :: l2 = l1 ++ p :: i :: l2 := by simp
    rw [this]
    exact ll.chain
  have hchpre : List.Chain' (adj c.entries) (l1 ++ [p]) :=
    (List.chain'_append.mp hch0).1
  have hhd' : (l1 ++ p :: l2).head? = some c.head := by
    rw [head?_append_cons l1 p l2 (i :: l2)]
    exact hhd
  cases l2 with
  | nil =>
    -- i is the tail; the second branch just moves `tail` to p
    have htvi : c.tail = i := by
      have : (l1 ++ p :: i :: List.nil).getLast? = some i := by
        have : l1 ++ p :: i :: List.nil = (l1 ++ [p]) ++ [i] := by simp
        rw [this]
        simp
      rw [this] at htl
      exact (Option.some_inj.mp htl).symm
    refine ⟨{ c with entries := e1, tail := p, length := c.length - 1 },
      ?_, ?_, rfl, rfl, rfl, he1len, hvals1⟩
    · unfold LRUCache.remove
      simp only [hlen, if_false, he_i, hihd, eprev, he_p,
        eq_true (show i = c.tail from htvi.symm), if_true, ite_false, ite_true]
    · refine ⟨hnd.sublist ?_, ?_, fun _ => hhd', ?_, ?_⟩
      · exact List.Sublist.append_left
          ((List.sublist_cons_self i []).cons₂ p) l1
      · intro j hj
        rw [he1len]
        refine ll.mem_lt j ?_
        rcases List.mem_append.mp hj with h | h
        · exact List.mem_append.mpr (Or.inl h)
        · refine List.mem_append.mpr (Or.inr ?_)
          have h' : j = p := by simpa using h
          simp [h']
      · intro _
        simp
      · refine chain'_imp_sub hchpre (fun a b hs hadj => ?_)
        by_cases hap : a = p
        · subst hap
          exact (not_pair_sublist_last hs hpl1).elim
        · constructor
          · rw [hnxt1_ne a hap]
            exact hadj.1
          · rw [hprv1 b]
            exact hadj.2
  | cons nh l2' =>
    -- i is interior; nh's `prev` is patched back to p
    have hnhmem : nh ∈ l1 ++ p :: i :: nh :: l2' := by simp
    have hnhlt : nh < c.entries.length := ll.mem_lt nh hnhmem
    have he_nh : c.entries[nh]? = some c.entries[nh] :=
      List.getElem?_eq_getElem hnhlt
    rcases List.chain'_cons.mp hch3 with ⟨hadj_inh, hch4⟩
    have enext : (c.entries[i]).next = nh :=
      ((nxt_eq_entry hilt).symm.trans hadj_inh.1)
    have hinh : i ≠ nh :=
      fun h => hil2 (by simp [h])
    have hpnh : p ≠ nh :=
      fun h => hpl2 (by simp [h])
    have htlmem : c.tail ∈ nh :: l2' := by
      have h1 : (l1 ++ p :: i :: nh :: l2').getLast? = (nh :: l2').getLast? := by
        have : l1 ++ p :: i :: nh :: l2' = (l1 ++ [p, i]) ++ nh :: l2' := by simp
        rw [this]
        exact List.getLast?_append_of_ne_nil _ (by simp)
      rw [h1] at htl
      exact mem_of_getLast?_some htl
    have hitl : i ≠ c.tail := by
      intro h
      refine hil2 ?_
      rw [h]
      exact htlmem
    have he1_nh : e1[nh]? = some c.entries[nh] := by
      rw [hdefe1, List.getElem?_set_ne hpnh, he_nh]
    set e2 : List (Entry T) := e1.set nh { c.entries[nh] with prev := p }
      with hdefe2
    have he2len : e2.length = c.entries.length := by
      rw [hdefe2, hdefe1]
      simp
    have hvals2 : ∀ j, valD e2 j = valD c.entries j := by
      intro j
      refine Eq.trans ?_ (hvals1 j)
      exact valD_set_keep he1_nh
        (show ({ c.entries[nh] with prev := p } : Entry T).val =
          (c.entries[nh]).val from rfl) j
    have hnxt2 : ∀ a, a ≠ p → a ≠ nh → nxt e2 a = nxt c.entries a := by
      intro a hap hanh
      rw [hdefe2, nxt_set_ne _ (fun h => hanh h.symm)]
      exact hnxt1_ne a hap
    have hnxt2_nh : nxt e2 nh = nxt c.entries nh := by
      have h1 : nxt e2 nh = (c.entries[nh]).next := by
        rw [hdefe2]
        have : nh < e1.length := by rw [he1len]; exact hnhlt
        rw [nxt_set_self this]
      rw [h1, ← nxt_eq_entry hnhlt]
    have hprv2_ne : ∀ b, b ≠ nh → prv e2 b = prv c.entries b := by
      intro b hb
      rw [hdefe2, prv_set_ne _ (fun h => hb h.symm)]
      exact hprv1 b
    have hchain2 : List.Chain' (adj e2) (l1 ++ p :: nh :: l2') := by
      have hassoc : l1 ++ p :: nh :: l2' = (l1 ++ [p]) ++ nh :: l2' := by simp
      rw [hassoc]
      refine List.chain'_append.mpr ⟨?_, ?_, ?_⟩
      · -- prefix, transferred
        refine chain'_imp_sub hchpre (fun a b hs hadj => ?_)
        have hbmem := hs.mem (show b ∈ [a, b] by simp)
        by_cases hap : a = p
        · subst hap
          exact (not_pair_sublist_last hs hpl1).elim
        · have hbnh : b ≠ nh := by
            intro h
            rw [h] at hbmem
            rcases List.mem_append.mp hbmem with hmem | hmem
            · exact hdisj hmem (by simp)
            · have hmem' : nh = p := by simpa using hmem
              exact hpnh hmem'.symm
          have hanh : a ≠ nh := by
            intro h
            have hamem := hs.mem (show a ∈ [a, b] by simp)
            rw [h] at hamem
            rcases List.mem_append.mp hamem with hmem | hmem
            · exact hdisj hmem (by simp)
            · have hmem' : nh = p := by simpa using hmem
              exact hpnh hmem'.symm
          constructor
          · rw [hnxt2 a hap hanh]
            exact hadj.1
          · rw [hprv2_ne b hbnh]
            exact hadj.2
      · -- suffix, transferred
        have hndnh : nh ∉ l2' :=
          (List.nodup_cons.mp (List.nodup_cons.mp
            (List.nodup_cons.mp hndr).2).2).1
        refine chain'_imp_sub hch4 (fun a b hs hadj => ?_)
        have hamem := hs.mem (show a ∈ [a, b] by simp)
        have hbmem := hs.mem (show b ∈ [a, b] by simp)
        by_cases hbnh : b = nh
        · subst hbnh
          exact (not_pair_sublist_head hs hndnh).elim
        · have hanp : a ≠ p := by
            intro h
            subst h
            rcases List.mem_cons.mp hamem with h | h
            · exact hpnh h
            · exact hpl2 (by simp [h])
          constructor
          · by_cases hanh : a = nh
            · subst hanh
              rw [hnxt2_nh]
              exact hadj.1
            · rw [hnxt2 a hanp hanh]
              exact hadj.1
          · rw [hprv2_ne b hbnh]
            exact hadj.2
      · -- the new link p → nh
        intro x hx y hy
        have hxp : p = x := by simpa using hx
        have hynh : nh = y := by simpa using hy
        subst hxp
        subst hynh
        constructor
        · have h1 : nxt e2 p = nxt e1 p := by
            rw [hdefe2, nxt_set_ne _ (fun h => hpnh h.symm)]
          rw [h1, hdefe1, nxt_set_self hplt]
          exact enext
        · rw [hdefe2]
          have hlt2 : nh < e1.length := by
            rw [he1len]
            exact hnhlt
          rw [prv_set_self hlt2]
    have he1_nh' : (c.entries.set p { c.entries[p] with next := nh })[nh]? =
        some c.entries[nh] := by
      rw [List.getElem?_set_ne hpnh, he_nh]
    refine ⟨{ c with entries := e2, length := c.length - 1 },
      ?_, ?_, rfl, rfl, rfl, he2len, hvals2⟩
    · unfold LRUCache.remove
      simp only [hlen, if_false, he_i, hihd, eprev, enext, he_p, hitl,
        he1_nh', ite_false, ite_true, hdefe2, hdefe1]
    · refine ⟨hnd.sublist ?_, ?_, fun _ => hhd', ?_, hchain2⟩
      · exact List.Sublist.append_left
          ((List.sublist_cons_self i (nh :: l2')).cons₂ p) l1
      · intro j hj
        rw [he2len]
        refine ll.mem_lt j ?_
        rcases List.mem_append.mp hj with h | h
        · exact List.mem_append.mpr (Or.inl h)
        · rcases List.mem_cons.mp h with h | h
          · exact List.mem_append.mpr (Or.inr (by simp [h]))
          · exact List.mem_append.mpr (Or.inr (by simp [h]))
      · intro _
        have h1 : (l1 ++ p :: nh :: l2').getLast? = (nh :: l2').getLast? := by
          have : l1 ++ p :: nh :: l2' = (l1 ++ [p]) ++ nh :: l2' := by simp
          rw [this]
          exact List.getLast?_append_of_ne_nil _ (by simp)
        have h2 : (l1 ++ p :: i :: nh :: l2').getLast? = (nh :: l2').getLast? := by
          have : l1 ++ p :: i :: nh :: l2' = (l1 ++ [p, i]) ++ nh :: l2' := by
            simp
          rw [this]
          exact List.getLast?_append_of_ne_nil _ (by simp)
        rw [h1, ← h2]
        exact htl

end LRU

namespace LRU

/-! ## `touch_index` -/

/-- Promoting any in-list slot `i` succeeds and moves exactly `i` to the
front of the recency order, preserving capacity, length, arena size and
all stored values. -/
theorem touch_index_good {T : Type} [Inhabited T] {c : LRUCache T}
    {ord : List Nat} {i : Nat} (g : GoodState c ord) (hi : i ∈ ord) :
    ∃ c', c.touch_index i = some c' ∧ GoodState c' (i :: ord.erase i) ∧
      c'.cap = c.cap ∧ c'.length = c.length ∧
      c'.entries.length = c.entries.length ∧
      (∀ j, valD c'.entries j = valD c.entries j) ∧ c'.head = i := by
  have hord : ord ≠ [] := fun h => by simp [h] at hi
  have hhd : ord.head? = some c.head := g.ll.head_eq hord
  by_cases hih : i = c.head
  · -- already the head: no-op
    have hcons : ∃ rest, ord = i :: rest := by
      cases ord with
      | nil => exact absurd rfl hord
      | cons a rest =>
        refine ⟨rest, ?_⟩
        have : a = c.head := by simpa using hhd
        rw [this, ← hih]
    rcases hcons with ⟨rest, hrest⟩
    have herase : i :: ord.erase i = ord := by
      rw [hrest, List.erase_cons_head]
    refine ⟨c, ?_, by rw [herase]; exact g, rfl, rfl, rfl, fun _ => rfl,
      hih.symm⟩
    unfold LRUCache.touch_index
    rw [if_pos hih]
  · -- genuine promotion: remove then push_front
    have hne : ord.head? ≠ some i := by
      rw [hhd]
      intro h
      exact hih (Option.some_inj.mp h).symm
    rcases mem_split_before hi hne with ⟨l1, p, l2, hsplit⟩
    have hll : LL c.entries c.head c.tail (l1 ++ p :: i :: l2) :=
      hsplit ▸ g.ll
    have hlen2 : ord.length = (l1 ++ p :: i :: l2).length := by rw [hsplit]
    have hlenpos : c.length ≠ 0 := by
      rw [g.len_eq, hlen2]
      simp
    rcases remove_good hll hlenpos with
      ⟨c1, hrem, hll1, hhd1, hcap1, hlen1, helen1, hvals1⟩
    set c2 : LRUCache T := { c1 with length := c1.length + 1 } with hdefc2
    have hll2 : LL c2.entries c2.head c2.tail (l1 ++ p :: l2) := hll1
    have hnodup := hll.nodup
    have hndr : (p :: i :: l2).Nodup := (List.nodup_append.mp hnodup).2.1
    have hdisj := (List.nodup_append.mp hnodup).2.2
    have hil1 : i ∉ l1 := fun h => hdisj h (by simp)
    have hpi : p ≠ i := by
      intro h
      exact (List.nodup_cons.mp hndr).1 (by simp [h])
    have hil2 : i ∉ l2 :=
      (List.nodup_cons.mp (List.nodup_cons.mp hndr).2).1
    have hni : i ∉ l1 ++ p :: l2 := by
      intro h
      rcases List.mem_append.mp h with h | h
      · exact hil1 h
      · rcases List.mem_cons.mp h with h | h
        · exact hpi h.symm
        · exact hil2 h
    have helen2 : c2.entries.length = c.entries.length := helen1
    have hlen1ne : c2.entries.length ≠ 1 := by
      rw [helen2, g.elen_eq, hlen2]
      simp [Nat.add_comm]
      omega
    have hilt : i < c2.entries.length := by
      rw [helen2]
      exact hll.mem_lt i (by simp)
    rcases push_front_good hll2 (by simp) hlen1ne hilt hni with
      ⟨c', hpf, hll', hhd', htl', hcap', hlen', helen', hvals'⟩
    have herase : ord.erase i = l1 ++ p :: l2 := by
      rw [hsplit]
      have : l1 ++ p :: i :: l2 = (l1 ++ [p]) ++ i :: l2 := by simp
      rw [this, List.erase_append_right, List.erase_cons_head]
      · simp
      · intro h
        rcases List.mem_append.mp h with h | h
        · exact hil1 h
        · have h' : i = p := by simpa using h
          exact hpi h'.symm
    have hlen3 : ord.length = l1.length + l2.length + 2 := by
      rw [hsplit]
      simp only [List.length_append, List.length_cons]
      omega
    have hclen : c'.length = c.length := by
      have h0 : c'.length = c1.length + 1 := hlen'
      rw [h0, hlen1, g.len_eq, hlen3]
      omega
    refine ⟨c', ?_, ?_, ?_, ?_, ?_, ?_, hhd'⟩
    · unfold LRUCache.touch_index
      rw [if_neg hih, hrem]
      exact hpf
    · -- GoodState for the promoted order
      rw [herase]
      refine ⟨hll', ?_, ?_, ?_⟩
      · rw [hclen, g.len_eq, hlen3]
        simp only [List.length_cons, List.length_append]
        omega
      · rw [helen', helen2, g.elen_eq, hlen3]
        simp only [List.length_cons, List.length_append]
        omega
      · have h6 : (i :: (l1 ++ p :: l2)).length = ord.length := by
          rw [hlen3]
          simp only [List.length_cons, List.length_append]
          omega
        rw [h6]
        have hcap'' : c'.cap = c.cap := by
          rw [hcap', hdefc2]
          exact hcap1
        rw [hcap'']
        exact g.cap_le
    · rw [hcap', hdefc2]
      exact hcap1
    · exact hclen
    · rw [helen']
      exact helen2
    · intro j
      rw [hvals' j]
      exact hvals1 j

end LRU

namespace LRU

/-! ## `touch` -/

/-- `touch` with no matching stored value returns `false` and the state
literally unchanged (no invariant needed beyond a successful scan). -/
theorem touch_no_match {T : Type} {c : LRUCache T} {vs : List T}
    (hi : c.items = some vs) {pred : T → Bool}
    (hnm : ∀ x ∈ vs, pred x = false) :
    c.touch pred = some (false, c) := by
  unfold LRUCache.items at hi
  cases hall : iterAll c with
  | none =>
    rw [hall] at hi
    simp at hi
  | some visits =>
    rw [hall] at hi
    have hvs : visits.map Prod.snd = vs := by simpa using hi
    have hfind : visits.find? (fun pr => pred pr.2) = none := by
      refine List.find?_eq_none.mpr (fun pr hpr => ?_)
      have hmem : pr.2 ∈ vs := hvs ▸ List.mem_map_of_mem Prod.snd hpr
      simp [hnm pr.2 hmem]
    unfold LRUCache.touch
    rw [hall]
    simp only [hfind]

/-- `touch` whose predicate first matches at value `x` (scan order
most-recent first) promotes exactly that entry: it returns `true`, the
matched value moves to the front, everything else keeps its relative
order, and length/capacity are unchanged. -/
theorem touch_found {T : Type} [Inhabited T] {c : LRUCache T} {ord : List Nat}
    (g : GoodState c ord) {pred : T → Bool} {l1 : List T} {x : T} {l2 : List T}
    (hv : valsOf c ord = l1 ++ x :: l2)
    (h1 : ∀ y ∈ l1, pred y = false) (hx : pred x = true) :
    ∃ c' ord', c.touch pred = some (true, c') ∧ GoodState c' ord' ∧
      c'.cap = c.cap ∧ c'.length = c.length ∧
      valsOf c' ord' = x :: (l1 ++ l2) ∧ c'.front = some x := by
  rcases List.map_eq_append_iff.mp hv with ⟨o1, o2', hsplit, ho1, ho2'⟩
  rcases List.map_eq_cons_iff.mp ho2' with ⟨i0, o2, ho2eq, hvx, ho2⟩
  subst ho2eq
  have hi0 : i0 ∈ ord := by
    rw [hsplit]
    simp
  have hi0no1 : i0 ∉ o1 := by
    intro h
    have := g.ll.nodup
    rw [hsplit] at this
    exact (List.disjoint_of_nodup_append this) h (by simp)
  have hvisits : iterAll c = some (ord.map (fun i => (i, valD c.entries i))) :=
    iterAll_good g
  have hfind : (ord.map (fun i => (i, valD c.entries i))).find?
      (fun pr => pred pr.2) = some (i0, x) := by
    rw [hsplit, List.map_append, List.map_cons]
    rw [find?_append_none _ (fun pr hpr => ?_)]
    · rw [List.find?_cons_of_pos, hvx]
      show pred (valD c.entries i0) = true
      rw [hvx]
      exact hx
    · rcases List.mem_map.mp hpr with ⟨j, hj, rfl⟩
      show pred (valD c.entries j) = false
      refine h1 _ ?_
      rw [← ho1]
      exact List.mem_map_of_mem _ hj
  rcases touch_index_good g hi0 with
    ⟨c', hti, g', hcap', hlen', helen', hvals', hhd'⟩
  have herase : ord.erase i0 = o1 ++ o2 := by
    rw [hsplit, List.erase_append_right _ hi0no1, List.erase_cons_head]
  have hvalfun : valD c'.entries = valD c.entries := funext hvals'
  have hvals'' : valsOf c' (i0 :: ord.erase i0) = x :: (l1 ++ l2) := by
    unfold valsOf
    rw [hvalfun, herase, List.map_cons, List.map_append, ho1, ho2, hvx]
  refine ⟨c', i0 :: ord.erase i0, ?_, g', hcap', hlen', hvals'', ?_⟩
  · unfold LRUCache.touch
    rw [hvisits]
    simp only [hfind, hti]
  · rw [front_good g', hvals'']
    rfl

/-- Any successful `touch` preserves the invariant. -/
theorem touch_pres {T : Type} [Inhabited T] {c : LRUCache T} {ord : List Nat}
    (g : GoodState c ord) {pred : T → Bool} {b : Bool} {c' : LRUCache T}
    (ht : c.touch pred = some (b, c')) :
    ∃ ord', GoodState c' ord' ∧ c'.cap = c.cap ∧ c'.length = c.length := by
  have hvisits := iterAll_good g
  unfold LRUCache.touch at ht
  rw [hvisits] at ht
  cases hfind : (ord.map (fun i => (i, valD c.entries i))).find?
      (fun pr => pred pr.2) with
  | none =>
    simp only [hfind, Option.some.injEq, Prod.mk.injEq] at ht
    rw [← ht.2]
    exact ⟨ord, g, rfl, rfl⟩
  | some pr =>
    obtain ⟨i, x⟩ := pr
    have hprmem := List.mem_of_find?_eq_some hfind
    rcases List.mem_map.mp hprmem with ⟨j, hj, hpr⟩
    have hji : j = i := by
      have := (Prod.mk.injEq _ _ _ _).mp hpr
      exact this.1
    subst hji
    rcases touch_index_good g hj with
      ⟨c1, hti, g1, hcap1, hlen1, _, _, _⟩
    simp only [hfind, hti, Option.some.injEq, Prod.mk.injEq] at ht
    rw [← ht.2]
    exact ⟨_, g1, hcap1, hlen1⟩

end LRU

namespace LRU

theorem take_append_singleton {α : Type} (l : List α) (a : α) (n : Nat)
    (h : n = l.length) : (l ++ [a]).take n = l := by
  subst h
  rw [List.take_append_eq_append_take]
  simp

/-! ## `insert` -/

/-- `insert` on an invariant state with positive capacity succeeds, puts
the new value in front, truncates the previous sequence to `cap - 1`
entries (evicting the least-recently-used value at full capacity), and
when full reuses the `tail` slot in place without changing `length`. -/
theorem insert_good {T : Type} [Inhabited T] {c : LRUCache T} {ord : List Nat}
    (g : GoodState c ord) (hcap : 1 ≤ c.cap) (v : T) :
    ∃ c' ord', c.insert v = some c' ∧ GoodState c' ord' ∧ c'.cap = c.cap ∧
      valsOf c' ord' = v :: (valsOf c ord).take (c.cap - 1) ∧
      c'.front = some v ∧
      (c.length = c.cap → c'.head = c.tail ∧ c'.length = c.length ∧
        c'.entries.length = c.entries.length) ∧
      (c.length < c.cap → c'.length = c.length + 1) := by
  by_cases hfull : c.length = c.cap
  · -- full: evict the tail slot and reuse it in place
    have hordne : ord ≠ [] := by
      intro h
      rw [g.len_eq, h] at hfull
      rw [List.length_nil] at hfull
      omega
    have htl : ord.getLast? = some c.tail := g.ll.tail_eq hordne
    have hhd : ord.head? = some c.head := g.ll.head_eq hordne
    have htmem : c.tail ∈ ord := mem_of_getLast?_some htl
    have htlt : c.tail < c.entries.length := g.ll.mem_lt _ htmem
    have he_t : c.entries[c.tail]? = some c.entries[c.tail] :=
      List.getElem?_eq_getElem htlt
    cases ord with
    | nil => exact absurd rfl hordne
    | cons h0 rest =>
    cases rest with
    | nil =>
      -- capacity 1: the single slot is overwritten, head = tail = that slot
      have hh0 : h0 = c.head := by simpa using hhd
      have ht0 : h0 = c.tail := by simpa using htl
      have helen1 : c.entries.length = 1 := by
        rw [g.elen_eq]
        rfl
      have hcap1 : c.cap = 1 := by
        rw [← hfull, g.len_eq]
        rfl
      have hlen1 : c.length = 1 := by
        rw [g.len_eq]
        rfl
      set c' : LRUCache T := ({ c with
        entries := c.entries.set c.tail ⟨v, 0, 0⟩,
        head := c.tail, tail := c.tail } : LRUCache T) with hdefc'
      have hins : c.insert v = some c' := by
        unfold LRUCache.insert LRUCache.pop_back
        rw [if_pos hfull, he_t]
        have hpf := push_front_one (c := { c with
          entries := c.entries.set c.tail ⟨v, 0, 0⟩,
          tail := (c.entries[c.tail]).prev }) (by simpa using helen1) c.tail
        simp only [hpf, hdefc']
        rw [he_t]
      have hg' : GoodState c' [c.tail] := by
        refine ⟨⟨by simp, ?_, fun _ => rfl, fun _ => rfl, ?_⟩, ?_, ?_, ?_⟩
        · intro j hj
          have hjt : j = c.tail := by simpa using hj
          subst hjt
          show c.tail < (c.entries.set c.tail ⟨v, 0, 0⟩).length
          simpa using htlt
        · exact List.chain'_singleton _
        · show c.length = 1
          exact hlen1
        · show (c.entries.set c.tail ⟨v, 0, 0⟩).length = 1
          rw [List.length_set]
          exact helen1
        · show 1 ≤ c.cap
          exact hcap
      have hvv : valsOf c' [c.tail] =
          v :: (valsOf c (h0 :: [])).take (c.cap - 1) := by
        rw [hcap1]
        unfold valsOf
        rw [List.map_cons]
        show [valD (c.entries.set c.tail ⟨v, 0, 0⟩) c.tail] = v :: List.take 0 _
        rw [valD_set_self htlt]
        rfl
      have hfr : c'.front = some v := by
        rw [front_good hg', hvv]
        rfl
      refine ⟨c', [c.tail], hins, hg', rfl, hvv, hfr, ?_, ?_⟩
      · intro _
        refine ⟨rfl, rfl, ?_⟩
        show (c.entries.set c.tail ⟨v, 0, 0⟩).length = c.entries.length
        rw [List.length_set]
      · intro h
        rw [hfull] at h
        omega
    | cons r rest2 =>
      -- at least two entries: unsplice the tail, overwrite it, splice at head
      have hh0 : h0 = c.head := by simpa using hhd
      have htr : c.tail ∈ r :: rest2 := by
        have h1 : (h0 :: r :: rest2).getLast? = (r :: rest2).getLast? :=
          List.getLast?_cons_cons
        rw [h1] at htl
        exact mem_of_getLast?_some htl
      have hth0 : c.tail ≠ h0 := by
        intro h
        exact (List.nodup_cons.mp g.ll.nodup).1 (h ▸ htr)
      have hne : (h0 :: r :: rest2).head? ≠ some c.tail := by
        intro h
        exact hth0 (by simpa using h.symm)
      rcases mem_split_before htmem hne with ⟨l1, q, l2, hsplit⟩
      have hl2nil : l2 = [] := by
        cases l2 with
        | nil => rfl
        | cons y l2' =>
          exfalso
          have h1 : (l1 ++ q :: c.tail :: y :: l2').getLast? =
              (y :: l2').getLast? := by
            have h2 : l1 ++ q :: c.tail :: y :: l2' =
                (l1 ++ [q, c.tail]) ++ y :: l2' := by simp
            rw [h2]
            exact List.getLast?_append_of_ne_nil _ (by simp)
          rw [hsplit, h1] at htl
          have htmem2 : c.tail ∈ y :: l2' := mem_of_getLast?_some htl
          have hnd2 : (h0 :: r :: rest2).Nodup := g.ll.nodup
          rw [hsplit] at hnd2
          have hnd3 := (List.nodup_append.mp hnd2).2.1
          have h4 := (List.nodup_cons.mp (List.nodup_cons.mp hnd3).2).1
          exact h4 htmem2
      rw [hl2nil] at hsplit
      have hsplit' : h0 :: r :: rest2 = (l1 ++ [q]) ++ [c.tail] := by
        rw [hsplit]
        simp
      have hnd := g.ll.nodup
      rw [hsplit'] at hnd
      have htnotin : c.tail ∉ l1 ++ [q] :=
        fun h => (List.disjoint_of_nodup_append hnd) h (by simp)
      have hqmem : q ∈ h0 :: r :: rest2 := by
        rw [hsplit]
        simp
      have hqlt : q < c.entries.length := g.ll.mem_lt _ hqmem
      have hchal : List.Chain' (adj c.entries) ((l1 ++ [q]) ++ [c.tail]) := by
        rw [← hsplit']
        exact g.ll.chain
      have hchpre : List.Chain' (adj c.entries) (l1 ++ [q]) :=
        (List.chain'_append.mp hchal).1
      have hadj_qt : adj c.entries q c.tail := by
        have h1 := (List.chain'_append.mp hchal).2.2
        exact h1 q (by simp) c.tail (by simp)
      have eprev_t : (c.entries[c.tail]).prev = q :=
        (prv_eq_entry htlt).symm.trans hadj_qt.2
      set em : List (Entry T) := c.entries.set c.tail ⟨v, 0, 0⟩ with hdefem
      have hemlen : em.length = c.entries.length := by
        rw [hdefem]
        simp
      set cm : LRUCache T := { c with tail := q, entries := em } with hdefcm
      have hllm : LL cm.entries cm.head cm.tail (l1 ++ [q]) := by
        refine ⟨(List.nodup_append.mp hnd).1, ?_, ?_, ?_, ?_⟩
        · intro j hj
          show j < em.length
          rw [hemlen]
          refine g.ll.mem_lt j ?_
          rw [hsplit']
          exact List.mem_append.mpr (Or.inl hj)
        · intro _
          show (l1 ++ [q]).head? = some c.head
          rw [head?_append_cons l1 q [] [c.tail]]
          have h2 : l1 ++ q :: [c.tail] = h0 :: r :: rest2 := hsplit.symm
          rw [h2]
          exact hhd
        · intro _
          show (l1 ++ [q]).getLast? = some q
          simp
        · show List.Chain' (adj em) (l1 ++ [q])
          refine chain'_imp_sub hchpre (fun a b hs hadj => ?_)
          have hat : c.tail ≠ a := by
            intro h
            exact htnotin (h ▸ hs.mem (show a ∈ [a, b] by simp))
          have hbt : c.tail ≠ b := by
            intro h
            exact htnotin (h ▸ hs.mem (show b ∈ [a, b] by simp))
          constructor
          · rw [hdefem, nxt_set_ne _ hat]
            exact hadj.1
          · rw [hdefem, prv_set_ne _ hbt]
            exact hadj.2
      have hcmlen : cm.entries.length ≠ 1 := by
        show em.length ≠ 1
        rw [hemlen, g.elen_eq]
        simp only [List.length_cons]
        omega
      have htltm : c.tail < cm.entries.length := by
        show c.tail < em.length
        rw [hemlen]
        exact htlt
      rcases push_front_good hllm (by simp) hcmlen htltm htnotin with
        ⟨c', hpf, hll', hhd', htl', hcap', hlen', helen', hvals'⟩
      have hpb : c.pop_back = some (c.tail, { c with tail := q }) := by
        unfold LRUCache.pop_back
        rw [he_t]
        simp only [eprev_t]
      have hins : c.insert v = some c' := by
        unfold LRUCache.insert
        rw [if_pos hfull]
        simp only [hpb, he_t]
        exact hpf
      have hg' : GoodState c' (c.tail :: (l1 ++ [q])) := by
        refine ⟨hll', ?_, ?_, ?_⟩
        · have h1 : c'.length = c.length := hlen'
          rw [h1, g.len_eq, hsplit']
          simp only [List.length_cons, List.length_append, List.length_nil]
          try omega
        · have h2 : c'.entries.length = c.entries.length := by
            rw [helen']
            exact hemlen
          rw [h2, g.elen_eq, hsplit']
          simp only [List.length_cons, List.length_append, List.length_nil]
          try omega
        · have h3 : (c.tail :: (l1 ++ [q])).length = (h0 :: r :: rest2).length := by
            rw [hsplit']
            simp only [List.length_cons, List.length_append, List.length_nil]
            try omega
          rw [h3]
          have h4 : c'.cap = c.cap := hcap'
          rw [h4]
          exact g.cap_le
      have hvv : valsOf c' (c.tail :: (l1 ++ [q])) =
          v :: (valsOf c (h0 :: r :: rest2)).take (c.cap - 1) := by
        have hvfun : valD c'.entries = valD em := funext hvals'
        unfold valsOf
        rw [hvfun, List.map_cons, hdefem, valD_set_self htlt]
        congr 1
        have hmapeq : (l1 ++ [q]).map (valD (c.entries.set c.tail ⟨v, 0, 0⟩)) =
            (l1 ++ [q]).map (valD c.entries) := by
          refine List.map_congr_left (fun j hj => ?_)
          exact valD_set_ne _ (fun h => htnotin (h ▸ hj))
        rw [hmapeq]
        have hlen4 : c.cap - 1 = ((l1 ++ [q]).map (valD c.entries)).length := by
          rw [List.length_map]
          have h5 : (h0 :: r :: rest2).length = c.cap := by
            rw [← g.len_eq]
            exact hfull
          rw [hsplit'] at h5
          simp only [List.length_append, List.length_cons, List.length_nil] at h5 ⊢
          omega
        have h6 : List.take (c.cap - 1)
            (List.map (valD c.entries) ((l1 ++ [q]) ++ [c.tail])) =
            List.map (valD c.entries) (l1 ++ [q]) := by
          rw [List.map_append]
          simp only [List.map_cons, List.map_nil]
          exact take_append_singleton _ _ _ hlen4
        conv_rhs => rw [hsplit']
        exact h6.symm
      have hfr : c'.front = some v := by
        rw [front_good hg', hvv]
        rfl
      refine ⟨c', c.tail :: (l1 ++ [q]), hins, hg', hcap', hvv, hfr, ?_, ?_⟩
      · intro _
        refine ⟨hhd', hlen', ?_⟩
        rw [helen']
        exact hemlen
      · intro h
        rw [hfull] at h
        omega
  · -- below capacity: append a fresh slot
    have hlt : c.length < c.cap :=
      lt_of_le_of_ne (g.len_eq ▸ g.cap_le) hfull
    have helen_ne : c.entries.length ≠ c.cap := by
      rw [g.elen_eq, ← g.len_eq]
      exact hfull
    cases ord with
    | nil =>
      -- empty cache: the new slot is index 0, head = tail = 0
      have hee : c.entries = [] :=
        List.eq_nil_of_length_eq_zero (by rw [g.elen_eq]; rfl)
      have hl0 : c.length = 0 := by
        rw [g.len_eq]
        rfl
      set c1 : LRUCache T := ({ c with
        entries := c.entries ++ [(⟨v, 0, 0⟩ : Entry T)],
        length := c.length + 1 } : LRUCache T) with hdefc1
      have hc1len : c1.entries.length = 1 := by
        show (c.entries ++ [(⟨v, 0, 0⟩ : Entry T)]).length = 1
        rw [hee]
        rfl
      set c' : LRUCache T := { c1 with tail := 0, head := 0 } with hdefc'
      have hins : c.insert v = some c' := by
        unfold LRUCache.insert
        rw [if_neg hfull]
        rw [if_neg helen_ne]
        have hidx : ((c.entries ++ [(⟨v, 0, 0⟩ : Entry T)]).length - 1) = 0 := by
          rw [hee]
          rfl
        show c1.push_front (c1.entries.length - 1) = some c'
        rw [hc1len]
        rw [push_front_one hc1len 0]
      have hg' : GoodState c' [0] := by
        refine ⟨⟨by simp, ?_, fun _ => rfl, fun _ => rfl, ?_⟩, ?_, ?_, ?_⟩
        · intro j hj
          have hj0 : j = 0 := by simpa using hj
          subst hj0
          show (0 : Nat) < c1.entries.length
          rw [hc1len]
          omega
        · exact List.chain'_singleton _
        · show c.length + 1 = 1
          rw [hl0]
        · show c1.entries.length = 1
          exact hc1len
        · show 1 ≤ c.cap
          exact hcap
      have hvv : valsOf c' [0] = v :: (valsOf c []).take (c.cap - 1) := by
        unfold valsOf
        rw [List.map_nil, List.take_nil]
        show [valD c1.entries 0] = [v]
        have h1 : c1.entries = [(⟨v, 0, 0⟩ : Entry T)] := by
          show c.entries ++ [(⟨v, 0, 0⟩ : Entry T)] = [⟨v, 0, 0⟩]
          rw [hee]
          rfl
        rw [h1]
        rfl
      have hfr : c'.front = some v := by
        rw [front_good hg', hvv]
        rfl
      refine ⟨c', [0], hins, hg', rfl, hvv, hfr, ?_, ?_⟩
      · intro h
        exact absurd h hfull
      · intro _
        rfl
    | cons h0 rest =>
      -- nonempty below capacity: fresh slot n spliced at head
      set n : Nat := c.entries.length with hdefn
      set c1 : LRUCache T := ({ c with
        entries := c.entries ++ [(⟨v, 0, 0⟩ : Entry T)],
        length := c.length + 1 } : LRUCache T) with hdefc1
      have hc1len : c1.entries.length = n + 1 := by
        show (c.entries ++ [(⟨v, 0, 0⟩ : Entry T)]).length = n + 1
        simp [hdefn]
      have hll1 : LL c1.entries c1.head c1.tail (h0 :: rest) :=
        LL_append g.ll [(⟨v, 0, 0⟩ : Entry T)]
      have hc1ne : c1.entries.length ≠ 1 := by
        rw [hc1len, hdefn, g.elen_eq]
        simp only [List.length_cons]
        omega
      have hnlt : n < c1.entries.length := by
        rw [hc1len]
        omega
      have hni : n ∉ h0 :: rest := by
        intro h
        have := g.ll.mem_lt n h
        rw [hdefn] at this
        omega
      rcases push_front_good hll1 (by simp) hc1ne hnlt hni with
        ⟨c', hpf, hll', hhd', htl', hcap', hlen', helen', hvals'⟩
      have hins : c.insert v = some c' := by
        unfold LRUCache.insert
        rw [if_neg hfull]
        rw [if_neg helen_ne]
        show c1.push_front (c1.entries.length - 1) = some c'
        rw [hc1len]
        show c1.push_front n = some c'
        exact hpf
      have hg' : GoodState c' (n :: h0 :: rest) := by
        refine ⟨hll', ?_, ?_, ?_⟩
        · show c'.length = (h0 :: rest).length + 1
          rw [hlen']
          show c.length + 1 = (h0 :: rest).length + 1
          rw [g.len_eq]
        · rw [helen', hc1len, hdefn, g.elen_eq]
          rfl
        · show (h0 :: rest).length + 1 ≤ c'.cap
          have h1 : c'.cap = c.cap := hcap'
          rw [h1, ← g.len_eq]
          omega
      have hvv : valsOf c' (n :: h0 :: rest) =
          v :: (valsOf c (h0 :: rest)).take (c.cap - 1) := by
        have hvfun : valD c'.entries = valD c1.entries := funext hvals'
        unfold valsOf
        rw [hvfun, List.map_cons]
        have hvn : valD c1.entries n = v := by
          show valD (c.entries ++ [(⟨v, 0, 0⟩ : Entry T)]) n = v
          unfold valD
          simp [hdefn]
        rw [hvn]
        congr 1
        have hmapeq : (h0 :: rest).map (valD c1.entries) =
            (h0 :: rest).map (valD c.entries) := by
          refine List.map_congr_left (fun j hj => ?_)
          show valD (c.entries ++ [(⟨v, 0, 0⟩ : Entry T)]) j = valD c.entries j
          exact valD_append (g.ll.mem_lt j hj)
        rw [hmapeq]
        have htake : ((h0 :: rest).map (valD c.entries)).length ≤ c.cap - 1 := by
          rw [List.length_map, ← g.len_eq]
          omega
        rw [List.take_of_length_le htake]
      have hfr : c'.front = some v := by
        rw [front_good hg', hvv]
        rfl
      refine ⟨c', n :: h0 :: rest, hins, hg', hcap', hvv, hfr, ?_, ?_⟩
      · intro h
        exact absurd h hfull
      · intro _
        rw [hlen']

end LRU

namespace LRU

/-! ## Sequences of inserts -/

theorem take_middle_take {α : Type} (A : List α) (v : α) (X : List α)
    (cap : Nat) :
    (A ++ v :: X.take (cap - 1)).take cap = (A ++ v :: X).take cap := by
  rw [List.take_append_eq_append_take, List.take_append_eq_append_take]
  congr 1
  cases hm : cap - A.length with
  | zero => rfl
  | succ m =>
    rw [List.take_succ_cons, List.take_succ_cons, List.take_take]
    have hmin : min m (cap - 1) = m := by omega
    rw [hmin]

/-- The empty cache satisfies the invariant with the empty order. -/
theorem empty_good {T : Type} (C : Nat) :
    GoodState (LRUCache.empty T C) [] := by
  refine ⟨⟨List.nodup_nil, ?_, ?_, ?_, List.chain'_nil⟩, rfl, rfl, ?_⟩
  · intro i hi
    simp at hi
  · intro h
    exact absurd rfl h
  · intro h
    exact absurd rfl h
  · simp

/-- Folding a whole list of inserts keeps the invariant; the resulting
value sequence is the reversed insertion order truncated to capacity. -/
theorem insertAll_good {T : Type} [Inhabited T] :
    ∀ (vs : List T) {c : LRUCache T} {ord : List Nat},
      GoodState c ord → 1 ≤ c.cap →
      ∃ c' ord', insertAll vs c = some c' ∧ GoodState c' ord' ∧
        c'.cap = c.cap ∧
        valsOf c' ord' = (vs.reverse ++ valsOf c ord).take c.cap
  | [], c, ord, g, hcap => by
    refine ⟨c, ord, rfl, g, rfl, ?_⟩
    rw [List.reverse_nil, List.nil_append]
    rw [List.take_of_length_le ?_]
    rw [valsOf, List.length_map]
    exact g.cap_le
  | v :: vs, c, ord, g, hcap => by
    rcases insert_good g hcap v with
      ⟨c1, ord1, hins, g1, hcap1, hvv1, _, _, _⟩
    rcases insertAll_good vs g1 (by rw [hcap1]; exact hcap) with
      ⟨c', ord', hall, g', hcap', hvv'⟩
    refine ⟨c', ord', ?_, g', by rw [hcap']; exact hcap1, ?_⟩
    · show List.foldlM LRUCache.insert c (v :: vs) = some c'
      rw [List.foldlM_cons, hins]
      exact hall
    · rw [hvv', hvv1, hcap1]
      rw [List.reverse_cons, List.append_assoc, List.singleton_append]
      exact take_middle_take vs.reverse v (valsOf c ord) c.cap

/-- `findSome?` is the value of `find?` on definedness, fed back through
the function. -/
theorem findSome?_eq_find?_bind {α β : Type} (f : α → Option β) :
    ∀ l : List α, l.findSome? f = (l.find? (fun a => (f a).isSome)).bind f
  | [] => rfl
  | a :: l => by
    cases hfa : f a with
    | some b =>
      rw [List.findSome?_cons]
      simp [hfa, List.find?_cons]
    | none =>
      rw [List.findSome?_cons]
      simp [hfa, List.find?_cons, findSome?_eq_find?_bind f l]

end LRU

namespace LRU

/-! ## `lookup`, `fetch`, capacity zero, `clear` -/

/-- `lookup` and `touch` (with the definedness predicate) finish in
exactly the same cache state, panic included. -/
theorem lookup_touch_snd {T R : Type} (c : LRUCache T) (pred : T → Option R) :
    (c.lookup pred).map Prod.snd =
      (c.touch (fun x => (pred x).isSome)).map Prod.snd := by
  unfold LRUCache.lookup LRUCache.touch
  cases hall : iterAll c with
  | none => rfl
  | some visits =>
    simp only []
    cases hf : visits.find? (fun pr => (pred pr.2).isSome) with
    | none => rfl
    | some pr =>
      obtain ⟨i, x⟩ := pr
      simp only []
      cases c.touch_index i with
      | none => rfl
      | some c1 => rfl

/-- The value returned by `lookup` is the first defined result of the
predicate along the scan. -/
theorem lookup_result {T R : Type} (c : LRUCache T) (pred : T → Option R)
    (visits : List (Nat × T)) (r : Option R) (c' : LRUCache T)
    (hall : iterAll c = some visits) (hl : c.lookup pred = some (r, c')) :
    r = visits.findSome? (fun pr => pred pr.2) := by
  unfold LRUCache.lookup at hl
  rw [hall] at hl
  rw [findSome?_eq_find?_bind]
  cases hf : visits.find? (fun pr => (pred pr.2).isSome) with
  | none =>
    simp only [hf, Option.some.injEq, Prod.mk.injEq] at hl
    exact hl.1.symm
  | some pr =>
    obtain ⟨i, x⟩ := pr
    simp only [hf] at hl
    cases hti : c.touch_index i with
    | none =>
      rw [hti] at hl
      exact absurd hl (by simp)
    | some c1 =>
      simp only [hti, Option.some.injEq, Prod.mk.injEq] at hl
      show r = pred x
      exact hl.1.symm

/-- A successful `lookup` preserves the invariant. -/
theorem lookup_pres {T R : Type} [Inhabited T] {c : LRUCache T}
    {ord : List Nat} (g : GoodState c ord) {pred : T → Option R}
    {r : Option R} {c' : LRUCache T} (hl : c.lookup pred = some (r, c')) :
    ∃ ord', GoodState c' ord' ∧ c'.cap = c.cap ∧ c'.length = c.length := by
  have hsnd := lookup_touch_snd c pred
  rw [hl] at hsnd
  cases ht : c.touch (fun x => (pred x).isSome) with
  | none =>
    rw [ht] at hsnd
    simp at hsnd
  | some pr =>
    obtain ⟨b, c''⟩ := pr
    rw [ht] at hsnd
    have hcc : c' = c'' := by simpa using hsnd
    rw [← hcc] at ht
    exact touch_pres g ht

/-- `fetch` and `touch` finish in exactly the same cache state. -/
theorem fetch_touch_snd {T : Type} (c : LRUCache T) (pred : T → Bool) :
    (c.fetch pred).map Prod.snd = (c.touch pred).map Prod.snd := by
  unfold LRUCache.fetch
  cases ht : c.touch pred with
  | none => rfl
  | some pr =>
    obtain ⟨found, c1⟩ := pr
    cases found <;> rfl

/-- A successful `fetch` preserves the invariant. -/
theorem fetch_pres {T : Type} [Inhabited T] {c : LRUCache T}
    {ord : List Nat} (g : GoodState c ord) {pred : T → Bool}
    {r : Option T} {c' : LRUCache T} (hf : c.fetch pred = some (r, c')) :
    ∃ ord', GoodState c' ord' ∧ c'.cap = c.cap ∧ c'.length = c.length := by
  have hsnd := fetch_touch_snd c pred
  rw [hf] at hsnd
  cases ht : c.touch pred with
  | none =>
    rw [ht] at hsnd
    simp at hsnd
  | some pr =>
    obtain ⟨b, c''⟩ := pr
    rw [ht] at hsnd
    have hcc : c' = c'' := by simpa using hsnd
    rw [← hcc] at ht
    exact touch_pres g ht

/-- On a zero-capacity cache `insert` panics (out-of-bounds indexing in
`pop_back`), modelled as `none`: it neither no-ops nor corrupts state. -/
theorem insert_cap_zero {T : Type} {c : LRUCache T} {ord : List Nat}
    (g : GoodState c ord) (h0 : c.cap = 0) (v : T) : c.insert v = none := by
  have hlen : c.length = 0 := by
    have h1 := g.cap_le
    rw [h0] at h1
    rw [g.len_eq]
    omega
  have hee : c.entries = [] := by
    refine List.eq_nil_of_length_eq_zero ?_
    rw [g.elen_eq]
    have h1 := g.cap_le
    rw [h0] at h1
    omega
  unfold LRUCache.insert LRUCache.pop_back
  rw [if_pos (by rw [hlen, h0]), hee]
  rfl

/-! ## The spec's stated list invariant -/

/-- The arena indices visited by a full scan, most-recent first. -/
def chainIdx {T : Type} (c : LRUCache T) : Option (List Nat) :=
  (iterAll c).map (List.map Prod.fst)

/-- The list invariant exactly as the specification states it: the scan
from `head` to `tail` succeeds and visits `length` nodes, no arena index
repeats in it, `length` never exceeds the capacity, and (when more than
one node is listed) every in-list node other than the boundaries is
mutually linked with both neighbours. -/
def ClaimInv {T : Type} (c : LRUCache T) : Prop :=
  ∃ l, chainIdx c = some l ∧ l.length = c.length ∧ l.Nodup ∧
    c.length ≤ c.cap ∧
    (1 < c.length → ∀ x ∈ l, x ≠ c.head → x ≠ c.tail →
      prv c.entries (nxt c.entries x) = x ∧ nxt c.entries (prv c.entries x) = x)

/-- The canonical invariant implies the claimed one. -/
theorem good_claiminv {T : Type} [Inhabited T] {c : LRUCache T}
    {ord : List Nat} (g : GoodState c ord) : ClaimInv c := by
  refine ⟨ord, ?_, g.len_eq.symm, g.ll.nodup, ?_, ?_⟩
  · unfold chainIdx
    rw [iterAll_good g]
    simp only [Option.map_some, Option.map_some', List.map_map]
    congr 1
    refine (List.map_congr_left (fun a _ => rfl)).trans (List.map_id ord)
  · rw [g.len_eq]
    exact g.cap_le
  · intro hlen x hx hxh hxt
    have hord : ord ≠ [] := fun h => by simp [h] at hx
    have hhd := g.ll.head_eq hord
    have htl := g.ll.tail_eq hord
    constructor
    · have hne : ord.getLast? ≠ some x := by
        rw [htl]
        intro h
        exact hxt (Option.some_inj.mp h).symm
      rcases mem_split_after hx hne with ⟨l1, b, l2, hsp⟩
      have hch : List.Chain' (adj c.entries) (l1 ++ x :: b :: l2) :=
        hsp ▸ g.ll.chain
      have hadj : adj c.entries x b := by
        rcases List.chain'_append.mp hch with ⟨_, h2, _⟩
        exact (List.chain'_cons.mp h2).1
      rw [hadj.1]
      exact hadj.2
    · have hne : ord.head? ≠ some x := by
        rw [hhd]
        intro h
        exact hxh (Option.some_inj.mp h).symm
      rcases mem_split_before hx hne with ⟨l1, p, l2, hsp⟩
      have hch : List.Chain' (adj c.entries) (l1 ++ p :: x :: l2) :=
        hsp ▸ g.ll.chain
      have hadj : adj c.entries p x := by
        rcases List.chain'_append.mp hch with ⟨_, h2, _⟩
        exact (List.chain'_cons.mp h2).1
      rw [hadj.2]
      exact hadj.1

/-- `clear` always lands in a state satisfying the claimed invariant. -/
theorem clear_claiminv {T : Type} (c : LRUCache T) : ClaimInv c.clear := by
  refine ⟨[], rfl, rfl, List.nodup_nil, Nat.zero_le _, ?_⟩
  intro h
  have h' : (1 : Nat) < 0 := h
  omega

end LRU

namespace LRU

/-! ## The claims -/

/-- C1: for every capacity `C ≥ 1`, inserting `C + 1` distinct values
`v1..v(C+1)` in order into an initially empty cache yields
`items() = [v(C+1), …, v2]`: the least-recently-used value `v1` is
evicted by overwriting the tail slot in place (the new head reuses the
old tail's arena index and the arena size is unchanged), the new value
becomes the head (`front`), and `length` is unchanged by the at-capacity
insert. -/
theorem claim1_insert_at_capacity_evicts_lru {T : Type} [Inhabited T]
    (C : Nat) (hC : 1 ≤ C) (vs : List T) (hlen : vs.length = C) (v : T)
    (_hnd : (vs ++ [v]).Nodup) :
    ∃ c1 c2, insertAll vs (LRUCache.empty T C) = some c1 ∧
      c1.insert v = some c2 ∧ c1.len = C ∧ c2.len = C ∧
      c2.head = c1.tail ∧ c2.entries.length = c1.entries.length ∧
      c2.items = some (v :: (vs.drop 1).reverse) ∧ c2.front = some v := by
  rcases insertAll_good vs (empty_good C) hC with ⟨c1, ord1, hall, g1, hcap1, hvv1⟩
  have hv0 : valsOf (LRUCache.empty T C) ([] : List Nat) = [] := rfl
  rw [show (LRUCache.empty T C).cap = C from rfl] at hcap1 hvv1
  rw [hv0, List.append_nil] at hvv1
  have hrevlen : vs.reverse.length = C := by
    rw [List.length_reverse]
    exact hlen
  rw [List.take_of_length_le (by rw [hrevlen])] at hvv1
  have hlen1 : c1.length = C := by
    have h1 : (valsOf c1 ord1).length = ord1.length := by
      unfold valsOf
      rw [List.length_map]
    rw [hvv1, hrevlen] at h1
    rw [g1.len_eq, ← h1]
  have hfull : c1.length = c1.cap := by
    rw [hlen1, hcap1]
  rcases insert_good g1 (by rw [hcap1]; exact hC) v with
    ⟨c2, ord2, hins2, g2, hcap2, hvv2, hfr2, hfullcl, _⟩
  rcases hfullcl hfull with ⟨hhd2, hlen2, helen2⟩
  refine ⟨c1, c2, hall, hins2, hlen1, ?_, hhd2, helen2, ?_, hfr2⟩
  · show c2.length = C
    rw [hlen2, hlen1]
  · rw [items_good g2, hvv2, hvv1, hcap1]
    have hdrop : vs.reverse.take (C - 1) = (vs.drop 1).reverse := by
      rw [List.take_reverse]
      have h2 : vs.length - (C - 1) = 1 := by omega
      rw [h2]
    rw [hdrop]

/-- C1 witness: capacity 2, inserting 1, 2, 3. -/
theorem claim1_witness :
    ∃ c1 c2, insertAll [1, 2] (LRUCache.empty Nat 2) = some c1 ∧
      c1.insert 3 = some c2 ∧ c1.len = 2 ∧ c2.len = 2 ∧
      c2.head = c1.tail ∧ c2.entries.length = c1.entries.length ∧
      c2.items = some (3 :: (([1, 2] : List Nat).drop 1).reverse) ∧
      c2.front = some 3 :=
  claim1_insert_at_capacity_evicts_lru 2 (by decide) [1, 2] (by decide) 3
    (by decide)

/-- C2: every public operation preserves the list invariants as the
specification states them (`ClaimInv`): scan length equals `length`, no
arena index repeats, `length ≤ cap`, and interior nodes are mutually
linked with both neighbours.  `insert`, `touch`, `lookup`, `fetch` are
conditioned on their (explicit-state) result; `clear` lands in the empty
invariant state; `front`, `front_mut` and `items` do not modify the
cache in the source (they only read or clone), so the state they
"preserve" is `c` itself, covered by the first and last conjuncts. -/
theorem claim2_public_ops_preserve_invariants {T : Type} [Inhabited T]
    (c : LRUCache T) (ord : List Nat) (g : GoodState c ord) :
    ClaimInv c ∧
    (∀ (v : T) (c' : LRUCache T), c.insert v = some c' → ClaimInv c') ∧
    (∀ (pred : T → Bool) (b : Bool) (c' : LRUCache T),
      c.touch pred = some (b, c') → ClaimInv c') ∧
    (∀ (R : Type) (pred : T → Option R) (r : Option R) (c' : LRUCache T),
      c.lookup pred = some (r, c') → ClaimInv c') ∧
    (∀ (pred : T → Bool) (r : Option T) (c' : LRUCache T),
      c.fetch pred = some (r, c') → ClaimInv c') ∧
    ClaimInv c.clear ∧
    c.front_mut = c.front ∧
    (∀ vs, c.items = some vs → ClaimInv c) := by
  refine ⟨good_claiminv g, ?_, ?_, ?_, ?_, clear_claiminv c, rfl,
    fun _ _ => good_claiminv g⟩
  · intro v c' hins
    by_cases hcap : 1 ≤ c.cap
    · rcases insert_good g hcap v with ⟨c'', ord'', hins', g'', _⟩
      rw [hins'] at hins
      have hcc : c' = c'' := (Option.some_inj.mp hins).symm
      rw [hcc]
      exact good_claiminv g''
    · have h0 : c.cap = 0 := by omega
      rw [insert_cap_zero g h0 v] at hins
      exact absurd hins (by simp)
  · intro pred b c' ht
    rcases touch_pres g ht with ⟨ord', g', _⟩
    exact good_claiminv g'
  · intro R pred r c' hl
    rcases lookup_pres g hl with ⟨ord', g', _⟩
    exact good_claiminv g'
  · intro pred r c' hf
    rcases fetch_pres g hf with ⟨ord', g', _⟩
    exact good_claiminv g'

/-- A concrete two-entry invariant state used by several witnesses:
values `[20, 10]` most-recent first, order `[1, 0]`. -/
def wcache : LRUCache Nat :=
  ⟨2, [⟨10, 1, 0⟩, ⟨20, 0, 0⟩], 1, 0, 2⟩

theorem wcache_good : GoodState wcache [1, 0] := by
  refine ⟨⟨by decide, by decide, fun _ => rfl, fun _ => rfl, ?_⟩,
    rfl, rfl, by decide⟩
  exact List.chain'_cons.mpr ⟨⟨rfl, rfl⟩, List.chain'_singleton 0⟩

/-- C2 witness: the invariant holds at a concrete reachable state. -/
theorem claim2_witness : ClaimInv wcache :=
  (claim2_public_ops_preserve_invariants wcache [1, 0] wcache_good).1

/-- C3: for every capacity `C ≥ 1` and every sequence of `n` inserts into
an initially empty cache, `len()` afterwards equals `min n C`. -/
theorem claim3_length_is_min {T : Type} [Inhabited T] (C : Nat)
    (hC : 1 ≤ C) (vs : List T) :
    ∃ c, insertAll vs (LRUCache.empty T C) = some c ∧
      c.len = min vs.length C := by
  rcases insertAll_good vs (empty_good C) hC with ⟨c, ord, hall, g, hcap, hvv⟩
  rw [show (LRUCache.empty T C).cap = C from rfl] at hvv
  refine ⟨c, hall, ?_⟩
  show c.length = min vs.length C
  have h1 : (valsOf c ord).length = ord.length := by
    unfold valsOf
    rw [List.length_map]
  have hv0 : valsOf (LRUCache.empty T C) ([] : List Nat) = [] := rfl
  rw [hvv, hv0, List.append_nil, List.length_take, List.length_reverse] at h1
  rw [g.len_eq]
  omega

/-- C3 witness: three inserts into a capacity-2 cache leave length 2. -/
theorem claim3_witness :
    ∃ c, insertAll [5, 6, 7] (LRUCache.empty Nat 2) = some c ∧
      c.len = min ([5, 6, 7] : List Nat).length 2 :=
  claim3_length_is_min 2 (by decide) [5, 6, 7]

/-- C4: when `touch` finds a match (the first satisfying value `x` in
most-recent-to-least-recent order — everything before it fails the
predicate), it returns found, `x` moves to the front unaltered, the
relative order of all other entries is preserved, and length is
unchanged. -/
theorem claim4_touch_promotes_first_match {T : Type} [Inhabited T]
    {c : LRUCache T} {ord : List Nat} (g : GoodState c ord)
    (pred : T → Bool) (l1 : List T) (x : T) (l2 : List T)
    (hitems : c.items = some (l1 ++ x :: l2))
    (h1 : ∀ y ∈ l1, pred y = false) (hx : pred x = true) :
    ∃ c', c.touch pred = some (true, c') ∧
      c'.items = some (x :: (l1 ++ l2)) ∧
      c'.length = c.length ∧ c'.front = some x := by
  have hv : valsOf c ord = l1 ++ x :: l2 := by
    have h2 := items_good g
    rw [hitems] at h2
    exact (Option.some_inj.mp h2).symm
  rcases touch_found g hv h1 hx with ⟨c', ord', ht, g', _, hlen', hvv, hfr⟩
  exact ⟨c', ht, by rw [items_good g', hvv], hlen', hfr⟩

/-- C4 witness: touching value 10 in the state `[20, 10]`. -/
theorem claim4_witness :
    ∃ c', wcache.touch (fun y => y == 10) = some (true, c') ∧
      c'.items = some (10 :: ([20] ++ [])) ∧
      c'.length = wcache.length ∧ c'.front = some 10 :=
  claim4_touch_promotes_first_match wcache_good (fun y => y == 10)
    [20] 10 [] (by decide) (by decide) (by decide)

/-- C5: when no stored value satisfies the predicate, `touch` returns
not-found and the cache is literally unchanged — the same state record,
hence the same `items()`, length, head, tail and stored values. -/
theorem claim5_touch_no_match_no_mutation {T : Type} (c : LRUCache T)
    (pred : T → Bool) (vs : List T) (hitems : c.items = some vs)
    (hnm : ∀ x ∈ vs, pred x = false) :
    c.touch pred = some (false, c) :=
  touch_no_match hitems hnm

/-- C5 witness: a predicate matching nothing in the state `[20, 10]`. -/
theorem claim5_witness : wcache.touch (fun y => y == 99) = some (false, wcache) :=
  claim5_touch_no_match_no_mutation wcache (fun y => y == 99) [20, 10]
    (by decide) (by decide)

/-- C6: `lookup` leaves the cache in exactly the same final state as
`touch` with the corresponding boolean (definedness) predicate — panics
included — and the value it returns is the predicate's derived result on
the first matching entry of the scan, absence when none matches
(`findSome?` over the scan). -/
theorem claim6_lookup_refines_touch {T R : Type} (c : LRUCache T)
    (pred : T → Option R) :
    (c.lookup pred).map Prod.snd =
      (c.touch (fun x => (pred x).isSome)).map Prod.snd ∧
    (∀ (visits : List (Nat × T)) (r : Option R) (c' : LRUCache T),
      iterAll c = some visits → c.lookup pred = some (r, c') →
      r = visits.findSome? (fun pr => pred pr.2)) :=
  ⟨lookup_touch_snd c pred,
   fun visits r c' hall hl => lookup_result c pred visits r c' hall hl⟩

/-- C6 witness: looking up 10 (derived value ×2) in the state `[20, 10]`. -/
theorem claim6_witness :
    (wcache.lookup (fun x => if x == 10 then some (x * 2) else none)).map
        Prod.snd =
      (wcache.touch (fun x =>
        (if x == 10 then some (x * 2) else none : Option Nat).isSome)).map
        Prod.snd ∧
    (some 20 : Option Nat) = ([(1, 20), (0, 10)] : List (Nat × Nat)).findSome?
      (fun pr => if pr.2 == 10 then some (pr.2 * 2) else none) := by
  constructor
  · exact (claim6_lookup_refines_touch wcache
      (fun x => if x == 10 then some (x * 2) else none)).1
  · exact (claim6_lookup_refines_touch wcache
      (fun x => if x == 10 then some (x * 2) else none)).2
      [(1, 20), (0, 10)] (some 20)
      ⟨2, [⟨10, 1, 1⟩, ⟨20, 0, 0⟩], 0, 1, 2⟩ (by decide) (by decide)

/-- C7: `fetch` is exactly `touch` followed, on success, by `front_mut`:
its final state is `touch`'s final state, and it returns the `front_mut`
handle of that state on a match, absence otherwise. -/
theorem claim7_fetch_is_touch_then_front {T : Type} (c : LRUCache T)
    (pred : T → Bool) :
    c.fetch pred = (c.touch pred).map
      (fun pr => (if pr.1 then pr.2.front_mut else none, pr.2)) := by
  unfold LRUCache.fetch
  cases ht : c.touch pred with
  | none => rfl
  | some pr =>
    obtain ⟨found, c1⟩ := pr
    cases found <;> rfl

/-- C8: inserting into a capacity-0 cache fails loudly — the modelled
panic `none` (out-of-bounds arena indexing inside `pop_back`) — and in
particular never silently no-ops or returns a corrupted state. -/
theorem claim8_insert_capacity_zero_panics {T : Type} (c : LRUCache T)
    (ord : List Nat) (g : GoodState c ord) (h0 : c.cap = 0) (v : T) :
    c.insert v = none :=
  insert_cap_zero g h0 v

/-- C8 witness: the empty zero-capacity cache. -/
theorem claim8_witness : (LRUCache.empty Nat 0).insert 7 = none :=
  claim8_insert_capacity_zero_panics (LRUCache.empty Nat 0) []
    (empty_good 0) rfl 7

/-- C9: `front` and `front_mut` agree, return absence exactly on the
empty cache, and otherwise return the head entry's value — the first
element of `items()`, i.e. the most-recently inserted-or-touched value.
Both are reads: in the source they write no field, so they neither
reorder the cache nor change its length. -/
theorem claim9_front_is_most_recent {T : Type} [Inhabited T]
    (c : LRUCache T) (ord : List Nat) (g : GoodState c ord) :
    c.front_mut = c.front ∧
    (c.length = 0 → c.front = none) ∧
    (0 < c.length → ∃ vs, c.items = some vs ∧ c.front = vs.head? ∧
      ∃ x, c.front = some x) := by
  refine ⟨rfl, ?_, ?_⟩
  · intro h
    have hord : ord = [] := by
      refine List.eq_nil_of_length_eq_zero ?_
      rw [← g.len_eq]
      exact h
    rw [front_good g, hord]
    rfl
  · intro h
    refine ⟨valsOf c ord, items_good g, front_good g, ?_⟩
    cases hord : ord with
    | nil =>
      rw [g.len_eq, hord] at h
      simp at h
    | cons i rest =>
      refine ⟨valD c.entries i, ?_⟩
      rw [front_good g, hord]
      rfl

/-- C9 witness: the state `[20, 10]` has front 20. -/
theorem claim9_witness :
    ∃ vs, wcache.items = some vs ∧ wcache.front = vs.head? ∧
      ∃ x, wcache.front = some x :=
  (claim9_front_is_most_recent wcache [1, 0] wcache_good).2.2 (by decide)

/-- C10: on an empty cache (`length = 0`) the scan yields no elements
(and in particular never dereferences `head` or `tail`), so `items` is
the empty sequence, `touch` returns not-found, `lookup` and `fetch`
return absence, all without panicking (`some`, never `none`) and with
the cache returned literally unchanged. -/
theorem claim10_empty_scan_safe {T : Type} (c : LRUCache T)
    (h : c.length = 0) :
    iterAll c = some [] ∧ c.items = some [] ∧
    (∀ pred : T → Bool, c.touch pred = some (false, c)) ∧
    (∀ (R : Type) (pred : T → Option R), c.lookup pred = some (none, c)) ∧
    (∀ pred : T → Bool, c.fetch pred = some (none, c)) := by
  have hall : iterAll c = some [] := by
    unfold iterAll
    rw [if_pos h]
  have htouch : ∀ pred : T → Bool, c.touch pred = some (false, c) := by
    intro pred
    unfold LRUCache.touch
    rw [hall]
    rfl
  refine ⟨hall, ?_, htouch, ?_, ?_⟩
  · unfold LRUCache.items
    rw [hall]
    rfl
  · intro R pred
    unfold LRUCache.lookup
    rw [hall]
    rfl
  · intro pred
    unfold LRUCache.fetch
    rw [htouch pred]
    rfl

/-- C10 witness: the empty capacity-4 cache. -/
theorem claim10_witness :
    iterAll (LRUCache.empty Nat 4) = some [] ∧
    (LRUCache.empty Nat 4).items = some [] ∧
    (LRUCache.empty Nat 4).touch (fun x => x == 3) =
      some (false, LRUCache.empty Nat 4) ∧
    (LRUCache.empty Nat 4).lookup (fun x => if x == 3 then some x else none) =
      some (none, LRUCache.empty Nat 4) ∧
    (LRUCache.empty Nat 4).fetch (fun x => x == 3) =
      some (none, LRUCache.empty Nat 4) := by
  have h := claim10_empty_scan_safe (LRUCache.empty Nat 4) rfl
  exact ⟨h.1, h.2.1, h.2.2.1 _, h.2.2.2.1 Nat _, h.2.2.2.2 _⟩

end LRU
